import Mathlib

/-!
Verification of the fp-clean effect runtime.

We give a shallow embedding of the core of the library. An Operation is a
function from an environment to a stream of Results. We model one full run
of such a stream as a finite trace: the list of yielded outcomes together
with how the driving loop finished, either normally or by a thrown fault.
All error and fault channels carry values of a single dynamic type, as in
the source where every thrown or failed value has type any.
-/

namespace FpClean

/-- JS-like values stored in environments, produced and consumed by factories
and operations. The undef constructor models the undefined value. -/
inductive Val : Type where
  | undef : Val
  | num : Int → Val
  | str : String → Val
  | boolean : Bool → Val
  deriving DecidableEq

/-- Dynamic error and fault values: thrown strings (the need-a-dependency
signal of the resolver), the CircularDependencyError with its joined path,
the DependencyResolutionError, the GenInvariantError of gen, a plain
JavaScript Error with a message, and arbitrary payload values. -/
inductive EVal : Type where
  | jsStr : String → EVal
  | circular : String → EVal
  | depRes : String → EVal
  | genInv : EVal
  | plainError : String → EVal
  | payload : Val → EVal
  deriving DecidableEq

/-- Result.ok and Result.err from Result/constructors.ts. -/
inductive Res (α : Type) : Type where
  | ok : α → Res α
  | err : EVal → Res α
  deriving DecidableEq

/-- How one run of an async generator finished: it completed normally, or it
threw a fault out of the generator. -/
inductive GEnd : Type where
  | norm : GEnd
  | fault : EVal → GEnd
  deriving DecidableEq

/-- One full run of the stream of an Operation: the outcomes yielded, in
order, and how the generator finished after the last yield. -/
structure Trace (α : Type) : Type where
  outs : List (Res α)
  fin : GEnd
  deriving DecidableEq

/-- An Operation, structurally a function from an environment to a stream of
Results; we record the trace the stream produces when fully driven. -/
abbrev Op (ρ α : Type) : Type := ρ → Trace α

/-- The outcomes of a stream that a fail-fast consumer loop forwards before
stopping at the first failure: the successes preceding the first err. -/
def takeOks {α : Type} : List (Res α) → List (Res α)
  | [] => []
  | .ok v :: rest => .ok v :: takeOks rest
  | .err _ :: _ => []

/-- The first failure of a list of outcomes, if any. -/
def firstErr {α : Type} : List (Res α) → Option EVal
  | [] => none
  | .ok _ :: rest => firstErr rest
  | .err e :: _ => some e

/-- constructors.ts ok: an Operation yielding a single success. -/
def okT {α : Type} (v : α) : Trace α := ⟨[.ok v], .norm⟩

/-- constructors.ts err: an Operation yielding a single failure. -/
def errT {α : Type} (e : EVal) : Trace α := ⟨[.err e], .norm⟩

/-- The inner consumer loop shared by flatMap, orElse and gen:
for await innerRes of inner { yield innerRes; if not innerRes.ok return }.
Every inner outcome up to and including the first failure is forwarded; on a
failure the whole generator returns early, so nothing of cont is run and the
rest of the inner stream is never pulled. If the inner stream throws, the
for-await loop rethrows the fault. If it completes normally without a
failure, control continues with cont. -/
def splice {α : Type} (inner : Trace α) (cont : Trace α) : Trace α :=
  match firstErr inner.outs with
  | some e => ⟨takeOks inner.outs ++ [.err e], .norm⟩
  | none =>
    match inner.fin with
    | .fault g => ⟨inner.outs, .fault g⟩
    | .norm => ⟨inner.outs ++ cont.outs, cont.fin⟩

/-- The driving loop of flatMap from Operation/combinators.ts (lines 46-68):
iterate the source; a source failure is yielded and ends the run; a source
success v splices the stream of f v, fail-fast; when the source list is
exhausted the end of the source stream (normal or fault) is reproduced. -/
def fmGo {α β : Type} (f : α → Trace β) : List (Res α) → GEnd → Trace β
  | [], fin => ⟨[], fin⟩
  | .err e :: _, _ => ⟨[.err e], .norm⟩
  | .ok v :: rest, fin => splice (f v) (fmGo f rest fin)

/-- flatMap from Operation/combinators.ts. -/
def flatMap {ρ α β : Type} (f : α → Op ρ β) (fa : Op ρ α) : Op ρ β :=
  fun r => fmGo (fun a => f a r) (fa r).outs (fa r).fin

/-- The driving loop of orElse from Operation/combinators.ts (lines 70-92):
iterate the source; a source success is yielded and iteration continues; a
source failure e splices the stream of f e, fail-fast, and on its normal
failure-free completion iteration of the source continues. -/
def oeGo {α : Type} (f : EVal → Trace α) : List (Res α) → GEnd → Trace α
  | [], fin => ⟨[], fin⟩
  | .ok v :: rest, fin =>
    let c := oeGo f rest fin
    ⟨.ok v :: c.outs, c.fin⟩
  | .err e :: rest, fin => splice (f e) (oeGo f rest fin)

/-- orElse from Operation/combinators.ts. -/
def orElse {ρ α : Type} (f : EVal → Op ρ α) (fa : Op ρ α) : Op ρ α :=
  fun r => oeGo (fun e => f e r) (fa r).outs (fa r).fin

/-- constructors.ts asks: yield one success holding f applied to the
environment. -/
def asks {ρ α : Type} (f : ρ → α) : Op ρ α := fun r => okT (f r)

/-- An environment as read by askFor and built by the resolver: a JS object
mapping string keys to values. -/
abbrev Env : Type := String → Option Val

/-- JS property access on an environment object: a missing key reads as
undefined. -/
def jsGet (r : Env) (k : String) : Val :=
  match r k with
  | some v => v
  | none => Val.undef

/-- askFor from Operation/constructors.ts: asOperation(asks((r) => r[tag.key])),
reading the property named by the tag key from the environment. -/
def askFor (k : String) : Op Env Val := asks (fun r => jsGet r k)

/-- A procedure handed to gen, as a strategy tree. ret v is the generator
returning v; thr e is the generator code throwing e when started or resumed,
covering both a throw in body() or before the first yield and a throw inside
it.next(value); yld op k yields the Operation op and continues as k applied
to the success value fed back by the interpreter. -/
inductive Proc (ρ : Type) (V : Type) : Type 1 where
  | ret : V → Proc ρ V
  | thr : EVal → Proc ρ V
  | yld : {α : Type} → Op ρ α → (α → Proc ρ V) → Proc ρ V

/-- What the driving loop of gen does with the remaining outcomes of a step
stream after the single call of it.next has been made and its composite has
completed normally without failure: the loop pulls the next step outcome
with seen set; a further success throws the GenInvariantError out of the
composite; a failure is yielded and ends the run; the end of the step stream
is reproduced if nothing more is yielded. -/
def afterOne {α β : Type} (fin : GEnd) : List (Res α) → Trace β
  | [] => ⟨[], fin⟩
  | .err e :: _ => ⟨[.err e], .norm⟩
  | .ok _ :: _ => ⟨[], .fault .genInv⟩

/-- The interpreter of gen from Operation/gen.ts (function run, lines 46-94).
A procedure that returns immediately is the Operation ok(value); a throw
while starting or resuming the procedure becomes the Operation err(e), one
failure outcome; at a yield the step stream is driven: a step failure is
yielded and ends the composite, the first step success resumes the
procedure and splices the resulting composite fail-fast, after which the
loop pulls the step stream again with the seen flag set. -/
def interp {ρ V : Type} (r : ρ) : Proc ρ V → Trace V
  | .ret v => okT v
  | .thr e => errT e
  | .yld op k =>
    match (op r).outs with
    | [] => ⟨[], (op r).fin⟩
    | .err e :: _ => ⟨[.err e], .norm⟩
    | .ok v :: rest => splice (interp r (k v)) (afterOne (op r).fin rest)

/-- The gen procedure for a chain of dependent steps, continuing after the
value a of the previous step: with no steps left return a, otherwise yield
the next step applied to a. -/
def chainProcFrom {ρ α : Type} : List (α → Op ρ α) → α → Proc ρ α
  | [], a => .ret a
  | g :: gs, a => .yld (g a) (chainProcFrom gs)

/-- The gen procedure yielding an initial step and then each dependent step
in order, threading the success values, and returning the last value. -/
def chainProc {ρ α : Type} (s0 : Op ρ α) (fs : List (α → Op ρ α)) : Proc ρ α :=
  .yld s0 (chainProcFrom fs)

/-- The same chain of steps composed by explicit flatMap chaining. -/
def chainFlatMap {ρ α : Type} (s0 : Op ρ α) (fs : List (α → Op ρ α)) : Op ρ α :=
  fs.foldl (fun acc g => flatMap g acc) s0

/-- A factory Operation as run by the resolver: a program that reads string
keys from the environment handed to it and ends by yielding its result.
done v stands for the factory whose stream ends with final success value v,
the value that the drive loop of runFactory keeps as result; fail e stands
for a factory whose stream yields a failure e, which the drive loop throws. -/
inductive Factory : Type where
  | done : Val → Factory
  | fail : EVal → Factory
  | read : String → (Val → Factory) → Factory

/-- The blueprint of Runner/resolve.ts: the services record of a Context,
an insertion-ordered record of factories keyed by string. -/
abbrev Blueprint : Type := List (String × Factory)

/-- Property lookup in the blueprint record. -/
def lookupBp : Blueprint → String → Option Factory
  | [], _ => none
  | (k2, f) :: rest, k => if k = k2 then some f else lookupBp rest k

/-- The cache of the resolver, key to resolved value. -/
abbrev Cache : Type := String → Option Val

/-- cache.set of the resolver. -/
def cacheSet (c : Cache) (k : String) (v : Val) : Cache :=
  fun k2 => if k2 = k then some v else c k2

/-- One attempt of a factory against the lazy environment proxy of
Runner/resolve.ts (lines 27-37), with the restart-signalling semantics of
the proxy get trap: a key found in the cache reads as the cached value; a
key in the blueprint but not in the cache makes the proxy throw the key
string; a key in neither reads as undefined. A yielded failure of the
factory is thrown by the drive loop (line 61). -/
def runFactoryBody (bp : Blueprint) (cache : Cache) : Factory → Except EVal Val
  | .done v => .ok v
  | .fail e => .error e
  | .read k cont =>
    match cache k with
    | some v => runFactoryBody bp cache (cont v)
    | none =>
      match lookupBp bp k with
      | some _ => .error (.jsStr k)
      | none => runFactoryBody bp cache (cont Val.undef)

/-- Removal from the in-progress set, as stack.delete. -/
def removeKey : List String → String → List String
  | [], _ => []
  | s :: rest, k => if s = k then removeKey rest k else s :: removeKey rest k

/-- The joined cycle path [...stack, key].join(given the arrow separator). -/
def joinPath (l : List String) : String := String.intercalate (" -> ") l

mutual

/-- runFactory of Runner/resolve.ts (lines 39-78), with explicit state and
fuel for the unbounded restart loop: return at once on a cached key; throw
the CircularDependencyError naming the path when the key is already in the
in-progress set; throw the DependencyResolutionError when the blueprint has
no factory for the key; otherwise mark the key in progress and enter the
restart loop. The returned pair is the updated cache and in-progress set. -/
def ensureKey (bp : Blueprint) : Nat → String → Cache → List String →
    Option (Except EVal (Cache × List String))
  | 0, _, _, _ => none
  | fuel + 1, key, cache, stack =>
    if (cache key).isSome then some (.ok (cache, stack))
    else if key ∈ stack then some (.error (.circular (joinPath (stack ++ [key]))))
    else
      match lookupBp bp key with
      | none => some (.error (.depRes key))
      | some fac => attemptKey bp fuel fac key cache (stack ++ [key])

/-- The while-true restart loop of runFactory: run the factory from scratch
against the lazy environment; on success cache the result and remove the key
from the in-progress set; on a thrown string naming a blueprint key, fully
resolve that key first and restart; any other thrown value propagates. -/
def attemptKey (bp : Blueprint) : Nat → Factory → String → Cache → List String →
    Option (Except EVal (Cache × List String))
  | 0, _, _, _, _ => none
  | fuel + 1, fac, key, cache, stack =>
    match runFactoryBody bp cache fac with
    | .ok v => some (.ok (cacheSet cache key v, removeKey stack key))
    | .error (.jsStr s) =>
      if (lookupBp bp s).isSome then
        match ensureKey bp fuel s cache stack with
        | none => none
        | some (.error e) => some (.error e)
        | some (.ok (cache2, stack2)) => attemptKey bp fuel fac key cache2 stack2
      else some (.error (.jsStr s))
    | .error e => some (.error e)

end

/-- The for-loop of resolve (lines 80-83): ensure every blueprint key in
insertion order, threading cache and in-progress set. -/
def ensureAll (bp : Blueprint) (fuel : Nat) :
    List String → Cache → List String → Option (Except EVal Cache)
  | [], cache, _ => some (.ok cache)
  | k :: ks, cache, stack =>
    match ensureKey bp fuel k cache stack with
    | none => none
    | some (.error e) => some (.error e)
    | some (.ok (cache2, stack2)) => ensureAll bp fuel ks cache2 stack2

/-- resolve of Runner/resolve.ts, run to completion: iterate the keys of the
blueprint in insertion order from an empty cache and empty in-progress set.
none models running out of fuel, an artifact of the embedding only. -/
def resolveRun (bp : Blueprint) (fuel : Nat) : Option (Except EVal Cache) :=
  ensureAll bp fuel (bp.map Prod.fst) (fun _ => none) []

/-- The stream of the resolve Operation: the outer try yields ok(cache) on
success, and its catch yields Result.err of any thrown value (lines 80-88),
so nothing thrown inside resolution escapes the resolve Operation as a
fault. -/
def resolveTrace (bp : Blueprint) (fuel : Nat) : Option (Trace Cache) :=
  match resolveRun bp fuel with
  | none => none
  | some (.ok c) => some ⟨[.ok c], .norm⟩
  | some (.error e) => some ⟨[.err e], .norm⟩

/-- Runner stream: pipe resolve into flatMap of the target Operation, with
the catch that rethrows a CircularDependencyError fault and converts any
other fault thrown by the pipeline into a yielded failure outcome. -/
def streamRun {α : Type} (op : Cache → Trace α) (bp : Blueprint) (fuel : Nat) :
    Option (Trace α) :=
  match resolveTrace bp fuel with
  | none => none
  | some src =>
    let t := fmGo op src.outs src.fin
    some (match t.fin with
      | .norm => t
      | .fault f =>
        match f with
        | .circular p => ⟨t.outs, .fault (.circular p)⟩
        | _ => ⟨t.outs ++ [.err f], .norm⟩)

/-- Runner get of Runner/get.ts (lines 6-25): await the first value of the
stream; if the stream ends with no value, throw the plain Error saying the
operation completed without yielding a result; a fault thrown by the stream
before its first yield rejects get with that fault; otherwise return the
first outcome. The Except layer separates a thrown rejection from a normal
return. -/
def getRun {α : Type} (op : Cache → Trace α) (bp : Blueprint) (fuel : Nat) :
    Option (Except EVal (Res α)) :=
  match streamRun op bp fuel with
  | none => none
  | some ⟨[], .norm⟩ =>
    some (.error (.plainError ("Operation completed without yielding a result.")))
  | some ⟨[], .fault f⟩ => some (.error f)
  | some ⟨o :: _, _⟩ => some (.ok o)

/-- The Operation built by Service.proxy(tag).method(args), Service.ts lines
81-111: gen of the procedure that first yields askFor(tag), receives the
service, looks the method up on it, calls it with the arguments, yields the
resulting Operation and returns its value. getSvc is the property read of
the tag key on the environment, method the looked-up member as a function of
the service and the argument list. -/
def proxyCall {ρ σ χ β : Type} (getSvc : ρ → σ) (method : σ → χ → Op ρ β)
    (args : χ) : Op ρ β :=
  fun r =>
    interp r (.yld (asks getSvc)
      (fun svc => .yld (method svc args) (fun b => .ret b)))

/-- The explicit form of the same call, flatMap(svc => svc.method(args))
applied to askFor(tag). -/
def proxyExplicit {ρ σ χ β : Type} (getSvc : ρ → σ) (method : σ → χ → Op ρ β)
    (args : χ) : Op ρ β :=
  flatMap (fun svc => method svc args) (asks getSvc)

/-- A registry of two factories that read each other: key a needs key b and
key b needs key a. -/
def bpCirc : Blueprint :=
  [(("a"), Factory.read ("b") (fun v => Factory.done v)),
   (("b"), Factory.read ("a") (fun v => Factory.done v))]

/-- A registry whose single factory reads a key that is in neither the cache
nor the registry. -/
def bpUnknown : Blueprint :=
  [(("a"), Factory.read ("zzz") (fun v => Factory.done v))]

/-- A service method Operation yielding two successes. -/
def twoVals : Op Unit Val := fun _ => ⟨[.ok (Val.num 1), .ok (Val.num 2)], .norm⟩

/-- The outcomes of the continuation stream spliced for one source outcome. -/
def innerOutsOf {α β : Type} (f : α → Trace β) : Res α → List (Res β)
  | .ok v => (f v).outs
  | .err _ => []

/-- Acyclicity of a factory tree with respect to a rank function: every key
the factory can read, on every path, that is present in the blueprint has
rank strictly below n. -/
def GoodTree (bp : Blueprint) (rank : String → Nat) (n : Nat) : Factory → Prop
  | .done _ => True
  | .fail _ => True
  | .read k cont =>
    ((lookupBp bp k).isSome → rank k < n) ∧ ∀ v, GoodTree bp rank n (cont v)

/-- A factory that never yields a failure, on any path. -/
def NoFail : Factory → Prop
  | .done _ => True
  | .fail _ => False
  | .read _ cont => ∀ v, NoFail (cont v)

/-- Stage n of the canonical resolved environment of a blueprint: the value
of each blueprint key of rank below n, computed by running its factory
against the previous stage. -/
def buildC (bp : Blueprint) (rank : String → Nat) : Nat → String → Option Val
  | 0, _ => none
  | n + 1, k =>
    match lookupBp bp k with
    | none => none
    | some f =>
      if rank k ≤ n then
        match runFactoryBody bp (buildC bp rank n) f with
        | .ok v => some v
        | .error _ => none
      else none

/-- The canonical resolved environment of an acyclic blueprint: each key
taken at its own stage. -/
def canonC (bp : Blueprint) (rank : String → Nat) : Cache :=
  fun k => buildC bp rank (rank k + 1) k

/-- A cache every entry of which agrees with the canonical environment. -/
def Consistent (bp : Blueprint) (rank : String → Nat) (c : Cache) : Prop :=
  ∀ k v, c k = some v → canonC bp rank k = some v

/-- The number of blueprint keys of rank below n not yet cached: the
termination measure of the restart loop of runFactory. -/
def uncachedBelow (bp : Blueprint) (rank : String → Nat) (c : Cache)
    (n : Nat) : Nat :=
  (bp.map Prod.fst).countP (fun d => decide (rank d < n) && (c d).isNone)

/-- provide of Context/Context.ts: the spread of the services record with
one key set, which keeps the position of an existing key and appends a new
key at the end. -/
def setKey : Blueprint → String → Factory → Blueprint
  | [], k, f => [(k, f)]
  | (k2, f2) :: rest, k, f =>
    if k2 = k then (k, f) :: rest else (k2, f2) :: setKey rest k f

/-- The Registry built by providing each pair, in order, onto the empty
Context. -/
def provideAll (ps : List (String × Factory)) : Blueprint :=
  ps.foldl (fun bp p => setKey bp p.1 p.2) []

/-- Successor on numeric values, the arithmetic of the odd-from-even example
factory. -/
def incVal : Val → Val
  | .num n => .num (n + 1)
  | _ => Val.undef

/-- The even-then-odd registration order of the specification example: even
is the constant 2 and odd reads even and adds one. -/
def psEO : List (String × Factory) :=
  [(("even"), Factory.done (Val.num 2)),
   (("odd"), Factory.read ("even") (fun v => Factory.done (incVal v)))]

/-- The same pairs registered in the opposite order. -/
def psOE : List (String × Factory) :=
  [(("odd"), Factory.read ("even") (fun v => Factory.done (incVal v))),
   (("even"), Factory.done (Val.num 2))]

/-! Helper lemmas about the consumer loops. -/

theorem takeOks_of_firstErr_none {α : Type} :
    ∀ (l : List (Res α)), firstErr l = none → takeOks l = l := by
  intro l
  induction l with
  | nil => intro _; rfl
  | cons o tl ih =>
    cases o with
    | ok v => intro h; simpa [takeOks, firstErr] using ih (by simpa [firstErr] using h)
    | err e => intro h; simp [firstErr] at h

theorem firstErr_append_err {α : Type} :
    ∀ (pre : List (Res α)) (e : EVal) (rest : List (Res α)),
    firstErr pre = none → firstErr (pre ++ .err e :: rest) = some e := by
  intro pre e rest
  induction pre with
  | nil => intro _; rfl
  | cons o tl ih =>
    cases o with
    | ok v => intro h; simpa [firstErr] using ih (by simpa [firstErr] using h)
    | err e2 => intro h; simp [firstErr] at h

theorem takeOks_append_err {α : Type} :
    ∀ (pre : List (Res α)) (e : EVal) (rest : List (Res α)),
    firstErr pre = none → takeOks (pre ++ .err e :: rest) = pre := by
  intro pre e rest
  induction pre with
  | nil => intro _; rfl
  | cons o tl ih =>
    cases o with
    | ok v => intro h; simpa [takeOks, firstErr] using ih (by simpa [firstErr] using h)
    | err e2 => intro h; simp [firstErr] at h

/-- splice of a failure-free, normally ending inner trace continues with
cont in full. -/
theorem splice_clean {α : Type} (inner cont : Trace α)
    (h1 : firstErr inner.outs = none) (h2 : inner.fin = .norm) :
    splice inner cont = ⟨inner.outs ++ cont.outs, cont.fin⟩ := by
  simp [splice, h1, h2]

/-- splice of an inner trace that yields a failure forwards the successes
before it and that failure, then stops: cont is never run and anything after
the failure is never pulled. -/
theorem splice_err {α : Type} (inner cont : Trace α) (ipre : List (Res α))
    (e : EVal) (irest : List (Res α))
    (houts : inner.outs = ipre ++ .err e :: irest) (hpre : firstErr ipre = none) :
    splice inner cont = ⟨ipre ++ [.err e], .norm⟩ := by
  simp [splice, houts, firstErr_append_err _ _ _ hpre, takeOks_append_err _ _ _ hpre]

/-- C10: askFor yields exactly one success Outcome holding the property read
of the key on the environment record, and when the environment lacks the key
that value is undefined, not a failure Outcome and not a fault. -/
theorem claim_C10_askFor_total (r : Env) (k : String) :
    askFor k r = ⟨[.ok (jsGet r k)], .norm⟩ ∧
    (r k = none → askFor k r = ⟨[.ok Val.undef], .norm⟩) := by
  refine ⟨rfl, fun h => ?_⟩
  simp [askFor, asks, okT, jsGet, h]

/-- Witness for C10 at a concrete empty environment and missing key. -/
theorem claim_C10_witness :
    askFor ("missing") (fun _ => none) = ⟨[.ok Val.undef], .norm⟩ :=
  (claim_C10_askFor_total (fun _ => none) ("missing")).2 rfl

/-- C9: orElse passes every success of the source through unchanged and
keeps iterating the source afterwards; after a failure it splices the
recovery Effect and, when that recovery ends normally without failure, keeps
iterating the source as well; and it stops early, independently of the rest
of the source, exactly when the recovery itself yields a failure. -/
theorem claim_C9_orElse_spec {α : Type} (f : EVal → Trace α) :
    (∀ (v : α) (rest : List (Res α)) (fin : GEnd),
        oeGo f (.ok v :: rest) fin =
          ⟨.ok v :: (oeGo f rest fin).outs, (oeGo f rest fin).fin⟩) ∧
    (∀ (e : EVal) (rest : List (Res α)) (fin : GEnd),
        firstErr (f e).outs = none → (f e).fin = .norm →
        oeGo f (.err e :: rest) fin =
          ⟨(f e).outs ++ (oeGo f rest fin).outs, (oeGo f rest fin).fin⟩) ∧
    (∀ (e : EVal) (rest : List (Res α)) (fin : GEnd) (ipre : List (Res α))
        (e2 : EVal) (irest : List (Res α)),
        (f e).outs = ipre ++ .err e2 :: irest → firstErr ipre = none →
        oeGo f (.err e :: rest) fin = ⟨ipre ++ [.err e2], .norm⟩) := by
  refine ⟨fun v rest fin => rfl, fun e rest fin h1 h2 => ?_, ?_⟩
  · simp [oeGo, splice_clean _ _ h1 h2]
  · intro e rest fin ipre e2 irest houts hpre
    simp [oeGo, splice_err _ _ _ _ _ houts hpre]

/-- Witness for C9 at a concrete recovery function and source traces. -/
theorem claim_C9_witness :
    oeGo (fun e => errT e) [.err (.payload (Val.num 3)), .ok (Val.num 5)] .norm =
      ⟨[.err (.payload (Val.num 3))], .norm⟩ :=
  (claim_C9_orElse_spec (fun e => errT e)).2.2 (.payload (Val.num 3))
    [.ok (Val.num 5)] .norm [] (.payload (Val.num 3)) [] rfl rfl

theorem fmGo_failfast {α β : Type} (f : α → Trace β) :
    ∀ (pre : List (Res α)) (e : EVal) (rest : List (Res α)) (fin : GEnd),
    firstErr pre = none →
    (∀ v : α, Res.ok v ∈ pre → firstErr (f v).outs = none ∧ (f v).fin = .norm) →
    fmGo f (pre ++ .err e :: rest) fin =
      ⟨(pre.map (innerOutsOf f)).flatten ++ [.err e], .norm⟩ := by
  intro pre e rest fin
  induction pre with
  | nil => intro _ _; rfl
  | cons o tl ih =>
    cases o with
    | ok v =>
      intro hpre hin
      have hv := hin v (by simp)
      have htl := ih (by simpa [firstErr] using hpre)
        (fun v2 hv2 => hin v2 (List.mem_cons_of_mem _ hv2))
      simp [fmGo, splice_clean _ _ hv.1 hv.2, htl, innerOutsOf]
    | err e2 => intro hpre _; simp [firstErr] at hpre

/-- C6: when driving the source inside flatMap actually reaches a failure
Outcome of the source, meaning the continuation Effects spliced for every
earlier success ended normally without failure, flatMap yields that failure
as its last Outcome and terminates normally; the result does not depend on
anything in the source past that failure, so the continuation is never
invoked on any later value and nothing further is yielded. -/
theorem claim_C6_flatMap_failfast {ρ α β : Type} (f : α → Op ρ β) (fa : Op ρ α)
    (r : ρ) (pre : List (Res α)) (e : EVal) (rest : List (Res α)) :
    (fa r).outs = pre ++ .err e :: rest →
    firstErr pre = none →
    (∀ v : α, Res.ok v ∈ pre →
      firstErr (f v r).outs = none ∧ (f v r).fin = .norm) →
    flatMap f fa r =
      ⟨(pre.map (innerOutsOf (fun a => f a r))).flatten ++ [.err e], .norm⟩ := by
  intro hsrc hpre hin
  simp only [flatMap, hsrc]
  exact fmGo_failfast _ pre e rest (fa r).fin hpre hin

/-- Witness for C6 at a concrete source with one success before the failure. -/
theorem claim_C6_witness :
    flatMap (fun (v : Val) => fun (_ : Unit) => okT v)
        (fun _ => ⟨[.ok (Val.num 1), .err (.payload (Val.num 7)), .ok (Val.num 9)],
          .fault .genInv⟩) () =
      ⟨[.ok (Val.num 1), .err (.payload (Val.num 7))], .norm⟩ := by
  have h := claim_C6_flatMap_failfast (fun (v : Val) => fun (_ : Unit) => okT v)
    (fun _ => ⟨[.ok (Val.num 1), .err (.payload (Val.num 7)), .ok (Val.num 9)],
      .fault .genInv⟩) () [.ok (Val.num 1)] (.payload (Val.num 7)) [.ok (Val.num 9)]
    rfl rfl (by intro v hv; simp at hv; subst hv; exact ⟨rfl, rfl⟩)
  simpa [innerOutsOf, okT] using h

/-- C2, counterexample: a factory of the only registered key a reads the key
zzz, which is in neither the cache nor the Registry. Resolution does not
fail: it completes successfully, the factory silently receives undefined,
and the resolved Environment maps a to undefined. No Unknown-Dependency
fault is thrown and no failure Outcome is produced. -/
theorem claim_C2_counterexample :
    resolveRun bpUnknown 3 =
      some (.ok (cacheSet (fun _ => none) ("a") Val.undef)) ∧
    cacheSet (fun _ => none) ("a") Val.undef ("a") = some Val.undef := by
  exact ⟨rfl, rfl⟩

/-- C2, amended: during resolution, a factory read of a key that is in
neither the cache nor the Registry silently returns undefined and the
factory continues; only a read of a key that is in the Registry but not yet
in the cache raises the missing-dependency signal, the thrown key string. -/
theorem claim_C2_amended (bp : Blueprint) (cache : Cache) (k : String)
    (cont : Val → Factory) :
    (cache k = none → lookupBp bp k = none →
      runFactoryBody bp cache (.read k cont) =
        runFactoryBody bp cache (cont Val.undef)) ∧
    (cache k = none → (lookupBp bp k).isSome →
      runFactoryBody bp cache (.read k cont) = .error (.jsStr k)) := by
  constructor
  · intro h1 h2
    simp [runFactoryBody, h1, h2]
  · intro h1 h2
    obtain ⟨f, hf⟩ := Option.isSome_iff_exists.mp h2
    simp [runFactoryBody, h1, hf]

/-- Witness for C2 amended at the concrete registry of the counterexample. -/
theorem claim_C2_witness :
    runFactoryBody bpUnknown (fun _ => none)
        (.read ("zzz") (fun v => Factory.done v)) = .ok Val.undef :=
  (claim_C2_amended bpUnknown (fun _ => none) ("zzz")
    (fun v => Factory.done v)).1 rfl rfl

/-- C1: at the concrete cyclic registry bpCirc, for every target Operation,
the Runner stream yields the CircularDependencyError naming the cycle a, b,
a as an ordinary failure Outcome and finishes normally, with no thrown
fault; and the single-value Runner get returns that failure Outcome
normally instead of rejecting. The blanket catch of resolve converts the
thrown CircularDependencyError into a yielded failure before the rethrow
guard of stream can see it, contradicting both the specification and the
inline comment of stream that circular dependency errors are rethrown. -/
theorem claim_C1_circular_downgraded {α : Type} (op : Cache → Trace α) :
    streamRun op bpCirc 9 =
      some ⟨[.err (.circular ("a -> b -> a"))], .norm⟩ ∧
    getRun op bpCirc 9 =
      some (.ok (.err (.circular ("a -> b -> a")))) := by
  have hres : resolveRun bpCirc 9 =
      some (.error (.circular ("a -> b -> a"))) := rfl
  have hstream : streamRun op bpCirc 9 =
      some ⟨[.err (.circular ("a -> b -> a"))], .norm⟩ := by
    simp [streamRun, resolveTrace, hres, fmGo]
  exact ⟨hstream, by simp [getRun, hstream]⟩

/-- splice preserves the first outcome of the inner trace. -/
theorem splice_head {α : Type} (inner cont : Trace α) (o : Res α)
    (os : List (Res α)) (h : inner.outs = o :: os) :
    ∃ tl, (splice inner cont).outs = o :: tl := by
  rcases o with v | e0
  · rcases hfe : firstErr os with _ | e
    · cases hfin : inner.fin with
      | fault g => exact ⟨os, by simp [splice, h, firstErr, hfe, hfin]⟩
      | norm => exact ⟨os ++ cont.outs, by simp [splice, h, firstErr, hfe, hfin]⟩
    · exact ⟨takeOks os ++ [.err e], by simp [splice, h, firstErr, hfe, takeOks]⟩
  · exact ⟨[], by simp [splice, h, firstErr, takeOks]⟩

/-- C8: when resolution succeeds, the single-value Runner get applied to a
target whose stream ends normally after zero Outcomes rejects with the
thrown plain Error saying the operation completed without yielding a
result, and applied to a target whose stream yields at least one Outcome it
returns exactly the first Outcome. -/
theorem claim_C8_get_first {α : Type} (op : Cache → Trace α) (bp : Blueprint)
    (fuel : Nat) (env : Cache)
    (hres : resolveRun bp fuel = some (.ok env)) :
    ((op env).outs = [] → (op env).fin = .norm →
      getRun op bp fuel =
        some (.error
          (.plainError ("Operation completed without yielding a result.")))) ∧
    (∀ (o : Res α) (os : List (Res α)), (op env).outs = o :: os →
      getRun op bp fuel = some (.ok o)) := by
  have hsrc : resolveTrace bp fuel = some ⟨[.ok env], .norm⟩ := by
    simp [resolveTrace, hres]
  constructor
  · intro h1 h2
    have hstream : streamRun op bp fuel = some ⟨[], .norm⟩ := by
      simp [streamRun, hsrc, fmGo, splice, h1, h2, firstErr]
    simp [getRun, hstream]
  · intro o os h1
    obtain ⟨tl, htl⟩ := splice_head (op env) (⟨[], .norm⟩ : Trace α) o os h1
    have hfm : fmGo op [Res.ok env] GEnd.norm =
        splice (op env) (⟨[], .norm⟩ : Trace α) := by
      simp [fmGo]
    have hget : ∀ (tl2 : List (Res α)) (fin2 : GEnd),
        streamRun op bp fuel = some ⟨o :: tl2, fin2⟩ →
        getRun op bp fuel = some (.ok o) := by
      intro tl2 fin2 hstream
      simp [getRun, hstream]
    rcases hsp : splice (op env) (⟨[], .norm⟩ : Trace α) with ⟨u, fin⟩
    rw [hsp] at htl
    have hu : u = o :: tl := htl
    subst hu
    cases fin with
    | norm => exact hget tl .norm (by simp [streamRun, hsrc, hfm, hsp])
    | fault f =>
      cases f with
      | circular p =>
        exact hget tl (.fault (.circular p))
          (by simp [streamRun, hsrc, hfm, hsp])
      | jsStr s =>
        exact hget (tl ++ [.err (.jsStr s)]) .norm
          (by simp [streamRun, hsrc, hfm, hsp])
      | depRes s =>
        exact hget (tl ++ [.err (.depRes s)]) .norm
          (by simp [streamRun, hsrc, hfm, hsp])
      | genInv =>
        exact hget (tl ++ [.err .genInv]) .norm
          (by simp [streamRun, hsrc, hfm, hsp])
      | plainError s =>
        exact hget (tl ++ [.err (.plainError s)]) .norm
          (by simp [streamRun, hsrc, hfm, hsp])
      | payload v =>
        exact hget (tl ++ [.err (.payload v)]) .norm
          (by simp [streamRun, hsrc, hfm, hsp])

/-- Witness for C8 at the empty registry and a target yielding nothing. -/
theorem claim_C8_witness :
    getRun (fun _ => (⟨[], .norm⟩ : Trace Val)) [] 1 =
      some (.error
        (.plainError ("Operation completed without yielding a result.")))  :=
  (claim_C8_get_first (fun _ => (⟨[], .norm⟩ : Trace Val)) [] 1
    (fun _ => none) rfl).1 rfl rfl

/-- C7: when a step Operation yielded inside gen produces a second success
Outcome, reached because the composite spliced for the first success ended
normally without failure, the interpreter aborts the whole composite with
the GenInvariantError as a thrown fault, after the outcomes already yielded,
and not as a failure Outcome. In contrast, a fault e thrown while starting
the procedure makes gen return the Operation err(e), a single failure
Outcome and a normal end, and a fault e thrown while resuming the procedure
after a step success is likewise converted into a failure Outcome ending the
composite normally. -/
theorem claim_C7_gen_multiple_values {ρ α V : Type} :
    (∀ (op : Op ρ α) (k : α → Proc ρ V) (r : ρ) (v1 v2 : α)
        (rest : List (Res α)),
        (op r).outs = .ok v1 :: .ok v2 :: rest →
        firstErr (interp r (k v1)).outs = none →
        (interp r (k v1)).fin = .norm →
        interp r (.yld op k) = ⟨(interp r (k v1)).outs, .fault .genInv⟩) ∧
    (∀ (e : EVal) (r : ρ),
        interp r (Proc.thr e : Proc ρ V) = ⟨[.err e], .norm⟩) ∧
    (∀ (op : Op ρ α) (e : EVal) (r : ρ) (v : α) (rest : List (Res α)),
        (op r).outs = .ok v :: rest →
        interp r (.yld op (fun _ => (Proc.thr e : Proc ρ V))) =
          ⟨[.err e], .norm⟩) := by
  refine ⟨fun op k r v1 v2 rest h1 h2 h3 => ?_, fun e r => rfl,
    fun op e r v rest h1 => ?_⟩
  · simp [interp, h1, afterOne, splice_clean _ _ h2 h3]
  · simp [interp, h1, splice, errT, firstErr, takeOks]

/-- Witness for C7 at a concrete step with two successes and the identity
continuation. -/
theorem claim_C7_witness :
    interp () (Proc.yld
        (fun _ => (⟨[.ok (Val.num 1), .ok (Val.num 2)], .norm⟩ : Trace Val))
        (fun v => (Proc.ret v : Proc Unit Val))) =
      ⟨[.ok (Val.num 1)], .fault .genInv⟩ := by
  have h := (@claim_C7_gen_multiple_values Unit Val Val).1
    (fun _ => ⟨[.ok (Val.num 1), .ok (Val.num 2)], .norm⟩) (fun v => .ret v) ()
    (Val.num 1) (Val.num 2) [] rfl rfl rfl
  simpa [interp, okT] using h

/-- For a chain whose steps all yield exactly one success, the interpreted
chain procedure from any start value and the flatMap fold started from any
one-success Operation produce the same single success. -/
theorem chainFrom_okT {ρ α : Type} (r : ρ) :
    ∀ (fs : List (α → Op ρ α)) (v0 : α),
    (∀ g, g ∈ fs → ∀ a : α, ∃ v, g a r = okT v) →
    ∃ w, interp r (chainProcFrom fs v0) = okT w ∧
      ∀ (s : Op ρ α), s r = okT v0 → chainFlatMap s fs r = okT w := by
  intro fs
  induction fs with
  | nil =>
    intro v0 _
    exact ⟨v0, rfl, fun s hs => by simpa [chainFlatMap] using hs⟩
  | cons g gs ih =>
    intro v0 h
    obtain ⟨v1, hg⟩ := h g (by simp) v0
    obtain ⟨w, hint, hfm⟩ :=
      ih v1 (fun g2 hg2 a => h g2 (List.mem_cons_of_mem _ hg2) a)
    refine ⟨w, ?_, ?_⟩
    · simp [chainProcFrom, interp, hg, okT, hint, splice, afterOne, firstErr]
    · intro s hs
      have hstep : flatMap g s r = okT v1 := by
        simp [flatMap, hs, okT, fmGo, hg, splice, firstErr]
      have hcons : chainFlatMap s (g :: gs) r =
          chainFlatMap (flatMap g s) gs r := rfl
      rw [hcons]
      exact hfm _ hstep

/-- C3: for a finite chain of step Operations each yielding exactly one
success Outcome, gen over the procedure that yields the steps in order and
the explicit flatMap chaining of the same steps produce identical traces on
every environment. -/
theorem claim_C3_gen_flatMap_equiv {ρ α : Type} (r : ρ) (s0 : Op ρ α)
    (fs : List (α → Op ρ α)) (v0 : α)
    (h0 : s0 r = okT v0)
    (hsteps : ∀ g, g ∈ fs → ∀ a : α, ∃ v, g a r = okT v) :
    interp r (chainProc s0 fs) = chainFlatMap s0 fs r := by
  obtain ⟨w, hint, hfm⟩ := chainFrom_okT r fs v0 hsteps
  have h1 : interp r (chainProc s0 fs) = okT w := by
    simp [chainProc, interp, h0, okT, hint, splice, afterOne, firstErr]
  rw [h1, hfm s0 h0]

/-- Witness for C3 at the three-step integer chain of the specification
example: start at 8, multiply by 2, subtract 4, in either style. -/
theorem claim_C3_witness :
    interp () (chainProc (fun _ => okT (8 : Int))
        [fun a => fun _ => okT (a * 2), fun a => fun _ => okT (a - 4)]) =
      chainFlatMap (fun _ => okT (8 : Int))
        [fun a => fun _ => okT (a * 2), fun a => fun _ => okT (a - 4)] () ∧
    chainFlatMap (fun _ => okT (8 : Int))
        [fun a => fun _ => okT (a * 2), fun a => fun _ => okT (a - 4)] () =
      okT (12 : Int) := by
  constructor
  · apply claim_C3_gen_flatMap_equiv () _ _ (8 : Int) rfl
    intro g hg a
    simp only [List.mem_cons, List.mem_singleton] at hg
    rcases hg with h | h | h
    · exact ⟨a * 2, by rw [h]⟩
    · exact ⟨a - 4, by rw [h]⟩
    · simp at h
  · rfl

/-- C4, counterexample: for a service method whose Operation yields two
successes, the proxy Operation yields the first success and then aborts with
the GenInvariantError fault of gen, while the explicit flatMap form yields
both successes and ends normally, so the two are not identical. -/
theorem claim_C4_counterexample :
    proxyCall (fun (_ : Unit) => ()) (fun _ (_ : Unit) => twoVals) () () =
      ⟨[.ok (Val.num 1)], .fault .genInv⟩ ∧
    proxyExplicit (fun (_ : Unit) => ()) (fun _ (_ : Unit) => twoVals) () () =
      ⟨[.ok (Val.num 1), .ok (Val.num 2)], .norm⟩ ∧
    proxyCall (fun (_ : Unit) => ()) (fun _ (_ : Unit) => twoVals) () () ≠
      proxyExplicit (fun (_ : Unit) => ()) (fun _ (_ : Unit) => twoVals) () () := by
  refine ⟨rfl, rfl, by decide⟩

/-- A list of outcomes with no leading successes is empty or starts with a
failure. -/
theorem takeOks_eq_nil {α : Type} :
    ∀ (l : List (Res α)), takeOks l = [] → l = [] ∨ ∃ e tl, l = .err e :: tl := by
  intro l
  cases l with
  | nil => intro _; exact Or.inl rfl
  | cons o tl =>
    cases o with
    | ok v => intro h; simp [takeOks] at h
    | err e => intro _; exact Or.inr ⟨e, tl, rfl⟩

/-- C4, amended: the proxy Operation and the explicit flatMap form produce
identical traces on every environment whenever the Operation returned by the
method yields at most one success before its first failure; the
counterexample shows they differ as soon as a second success precedes the
first failure, where gen aborts with its multiple-values defect. -/
theorem claim_C4_amended {ρ σ χ β : Type} (getSvc : ρ → σ)
    (method : σ → χ → Op ρ β) (args : χ) (r : ρ)
    (h : (takeOks (method (getSvc r) args r).outs).length ≤ 1) :
    proxyCall getSvc method args r = proxyExplicit getSvc method args r := by
  rw [show (method (getSvc r) args r) =
    ⟨(method (getSvc r) args r).outs, (method (getSvc r) args r).fin⟩ from rfl] at h
  rcases hM : method (getSvc r) args r with ⟨outs, mfin⟩
  rw [hM] at h
  rcases outs with _ | ⟨o, tl⟩
  · cases mfin <;>
      simp [proxyCall, proxyExplicit, flatMap, asks, okT, interp, hM, fmGo,
        splice, afterOne, firstErr, takeOks]
  · rcases o with b | e
    · have htl : takeOks tl = [] := by simpa [takeOks] using h
      rcases takeOks_eq_nil tl htl with h2 | ⟨e2, tl2, h2⟩
      · subst h2
        cases mfin <;>
          simp [proxyCall, proxyExplicit, flatMap, asks, okT, interp, hM,
            fmGo, splice, afterOne, firstErr, takeOks]
      · subst h2
        cases mfin <;>
          simp [proxyCall, proxyExplicit, flatMap, asks, okT, interp, hM,
            fmGo, splice, afterOne, firstErr, takeOks]
    · cases mfin <;>
        simp [proxyCall, proxyExplicit, flatMap, asks, okT, interp, hM, fmGo,
          splice, afterOne, firstErr, takeOks]

/-- Witness for C4 amended at a concrete one-success method. -/
theorem claim_C4_witness :
    proxyCall (fun (_ : Unit) => ()) (fun _ (_ : Unit) (_ : Unit) =>
        okT (Val.num 4)) () () =
      proxyExplicit (fun (_ : Unit) => ()) (fun _ (_ : Unit) (_ : Unit) =>
        okT (Val.num 4)) () () :=
  claim_C4_amended (fun _ => ()) (fun _ _ _ => okT (Val.num 4)) () ()
    (by simp [okT, takeOks])

/-! Lemmas for the dependency resolver. -/

theorem lookupBp_isSome_mem (bp : Blueprint) (k : String)
    (h : (lookupBp bp k).isSome) : k ∈ bp.map Prod.fst := by
  induction bp with
  | nil => simp [lookupBp] at h
  | cons p rest ih =>
    obtain ⟨k2, f⟩ := p
    by_cases hk : k = k2
    · subst hk; simp
    · simp only [lookupBp, if_neg hk] at h
      simp only [List.map_cons, List.mem_cons]
      exact Or.inr (ih h)

theorem mem_lookupBp_isSome (bp : Blueprint) (k : String)
    (h : k ∈ bp.map Prod.fst) : (lookupBp bp k).isSome := by
  induction bp with
  | nil => simp at h
  | cons p rest ih =>
    obtain ⟨k2, f⟩ := p
    by_cases hk : k = k2
    · simp [lookupBp, hk]
    · simp only [List.map_cons, List.mem_cons] at h
      rcases h with h | h
      · exact absurd h hk
      · simpa [lookupBp, hk] using ih h

theorem removeKey_append_self (s : List String) (k : String) (h : k ∉ s) :
    removeKey (s ++ [k]) k = s := by
  induction s with
  | nil => simp [removeKey]
  | cons x tl ih =>
    have hx : x ≠ k := fun he => h (by simp [he])
    have htl : k ∉ tl := fun hm => h (List.mem_cons_of_mem _ hm)
    simp [removeKey, hx, ih htl]

theorem buildC_none_of_lookup_none (bp : Blueprint) (rank : String → Nat)
    (k : String) (h : lookupBp bp k = none) :
    ∀ n, buildC bp rank n k = none := by
  intro n
  cases n with
  | zero => rfl
  | succ n => simp [buildC, h]

theorem canonC_none_of_lookup_none (bp : Blueprint) (rank : String → Nat)
    (k : String) (h : lookupBp bp k = none) : canonC bp rank k = none :=
  buildC_none_of_lookup_none bp rank k h _

theorem canonC_isSome_lookup (bp : Blueprint) (rank : String → Nat)
    (k : String) (h : (canonC bp rank k).isSome) : (lookupBp bp k).isSome := by
  by_contra hn
  rw [Option.not_isSome_iff_eq_none] at hn
  rw [canonC_none_of_lookup_none bp rank k hn] at h
  simp at h

/-- runFactoryBody consults the blueprint only through lookup. -/
theorem runFactoryBody_congr (bp1 bp2 : Blueprint)
    (h : ∀ k, lookupBp bp1 k = lookupBp bp2 k) (c : Cache) :
    ∀ f, runFactoryBody bp1 c f = runFactoryBody bp2 c f := by
  intro f
  induction f with
  | done v => rfl
  | fail e => rfl
  | read k cont ih =>
    simp only [runFactoryBody]
    cases c k with
    | some v => exact ih v
    | none =>
      rw [h k]
      cases lookupBp bp2 k with
      | some f2 => rfl
      | none => exact ih Val.undef

theorem goodTree_congr (bp1 bp2 : Blueprint) (rank : String → Nat)
    (h : ∀ k, lookupBp bp1 k = lookupBp bp2 k) :
    ∀ (f : Factory) (n : Nat), GoodTree bp1 rank n f → GoodTree bp2 rank n f := by
  intro f
  induction f with
  | done v => intro n _; trivial
  | fail e => intro n _; trivial
  | read k cont ih =>
    intro n hg
    exact ⟨fun hs => hg.1 (by rwa [h k]), fun v => ih v n (hg.2 v)⟩

theorem buildC_congr (bp1 bp2 : Blueprint) (rank : String → Nat)
    (h : ∀ k, lookupBp bp1 k = lookupBp bp2 k) :
    ∀ n k, buildC bp1 rank n k = buildC bp2 rank n k := by
  intro n
  induction n with
  | zero => intro k; rfl
  | succ n ih =>
    intro k
    have hc : buildC bp1 rank n = buildC bp2 rank n := funext ih
    simp only [buildC, h k, hc]
    cases lookupBp bp2 k with
    | none => rfl
    | some f => simp [runFactoryBody_congr bp1 bp2 h (buildC bp2 rank n) f]

theorem canonC_congr (bp1 bp2 : Blueprint) (rank : String → Nat)
    (h : ∀ k, lookupBp bp1 k = lookupBp bp2 k) :
    canonC bp1 rank = canonC bp2 rank :=
  funext fun k => buildC_congr bp1 bp2 rank h _ k

/-- One attempt of a factory reads only blueprint keys of rank below the
bound of its tree and keys outside the blueprint, so two caches agreeing
there give the same outcome. -/
theorem runFactoryBody_cache_agree (bp : Blueprint) (rank : String → Nat)
    (n : Nat) (c1 c2 : Cache)
    (hbp : ∀ d, (lookupBp bp d).isSome → rank d < n → c1 d = c2 d)
    (hout : ∀ d, lookupBp bp d = none → c1 d = c2 d) :
    ∀ f, GoodTree bp rank n f →
      runFactoryBody bp c1 f = runFactoryBody bp c2 f := by
  intro f
  induction f with
  | done v => intro _; rfl
  | fail e => intro _; rfl
  | read k cont ih =>
    intro hg
    simp only [runFactoryBody]
    cases hlk : lookupBp bp k with
    | some f2 =>
      have hck : c1 k = c2 k := hbp k (by simp [hlk]) (hg.1 (by simp [hlk]))
      rw [hck]
      cases c2 k with
      | some v => exact ih v (hg.2 v)
      | none => simp [hlk]
    | none =>
      have hck : c1 k = c2 k := hout k hlk
      rw [hck]
      cases c2 k with
      | some v => exact ih v (hg.2 v)
      | none => simp [hlk]; exact ih Val.undef (hg.2 Val.undef)

/-- The stages of the canonical environment stabilise at each key once the
stage exceeds its rank. -/
theorem buildC_stable (bp : Blueprint) (rank : String → Nat)
    (Hgood : ∀ k f, lookupBp bp k = some f → GoodTree bp rank (rank k) f) :
    ∀ R k, rank k < R → ∀ n m, rank k < n → rank k < m →
      buildC bp rank n k = buildC bp rank m k := by
  intro R
  induction R with
  | zero => intro k hk; omega
  | succ R ih =>
    intro k hk n m hn hm
    cases n with
    | zero => omega
    | succ n2 =>
      cases m with
      | zero => omega
      | succ m2 =>
        simp only [buildC]
        cases hf : lookupBp bp k with
        | none => rfl
        | some f =>
          have h1 : rank k ≤ n2 := by omega
          have h2 : rank k ≤ m2 := by omega
          have hagree : runFactoryBody bp (buildC bp rank n2) f =
              runFactoryBody bp (buildC bp rank m2) f := by
            apply runFactoryBody_cache_agree bp rank (rank k) _ _ ?_ ?_ f
              (Hgood k f hf)
            · intro d _ hdr
              exact ih d (by omega) n2 m2 (by omega) (by omega)
            · intro d hd
              rw [buildC_none_of_lookup_none bp rank d hd,
                buildC_none_of_lookup_none bp rank d hd]
          simp [h1, h2, hagree]

/-- A factory with no fail node succeeds when every blueprint key it can
read is cached. -/
theorem runFactoryBody_nofail (bp : Blueprint) (rank : String → Nat)
    (n : Nat) (c : Cache)
    (hc : ∀ d, (lookupBp bp d).isSome → rank d < n → (c d).isSome) :
    ∀ f, GoodTree bp rank n f → NoFail f →
      ∃ v, runFactoryBody bp c f = .ok v := by
  intro f
  induction f with
  | done v => intro _ _; exact ⟨v, rfl⟩
  | fail e => intro _ hnf; exact absurd hnf (by simp [NoFail])
  | read k cont ih =>
    intro hg hnf
    simp only [runFactoryBody]
    cases hck : c k with
    | some v => exact ih v (hg.2 v) (hnf v)
    | none =>
      cases hlk : lookupBp bp k with
      | some f2 =>
        have := hc k (by simp [hlk]) (hg.1 (by simp [hlk]))
        rw [hck] at this
        simp at this
      | none => exact ih Val.undef (hg.2 Val.undef) (hnf Val.undef)

/-- Every blueprint key of an acyclic registry of no-fail factories has a
canonical value. -/
theorem canonC_isSome (bp : Blueprint) (rank : String → Nat)
    (Hgood : ∀ k f, lookupBp bp k = some f → GoodTree bp rank (rank k) f)
    (Hnf : ∀ k f, lookupBp bp k = some f → NoFail f) :
    ∀ R k, rank k < R → (lookupBp bp k).isSome →
      (canonC bp rank k).isSome := by
  intro R
  induction R with
  | zero => intro k hk; omega
  | succ R ih =>
    intro k hk hsome
    obtain ⟨f, hf⟩ := Option.isSome_iff_exists.mp hsome
    have hrun : ∃ v, runFactoryBody bp (buildC bp rank (rank k)) f = .ok v := by
      apply runFactoryBody_nofail bp rank (rank k) _ ?_ f (Hgood k f hf)
        (Hnf k f hf)
      intro d hd hdr
      have hst : buildC bp rank (rank k) d = canonC bp rank d := by
        exact buildC_stable bp rank Hgood (rank k) d hdr (rank k) (rank d + 1)
          hdr (by omega)
      rw [hst]
      exact ih d (by omega) hd
    obtain ⟨v, hv⟩ := hrun
    simp [canonC, buildC, hf, hv]

/-- The canonical environment is a fixpoint: the factory of each blueprint
key, run against the canonical environment, succeeds with exactly the
canonical value of that key. -/
theorem canonC_fix (bp : Blueprint) (rank : String → Nat)
    (Hgood : ∀ k f, lookupBp bp k = some f → GoodTree bp rank (rank k) f)
    (Hnf : ∀ k f, lookupBp bp k = some f → NoFail f) :
    ∀ k f, lookupBp bp k = some f →
      ∃ v, canonC bp rank k = some v ∧
        runFactoryBody bp (canonC bp rank) f = .ok v := by
  intro k f hf
  have hagree : runFactoryBody bp (buildC bp rank (rank k)) f =
      runFactoryBody bp (canonC bp rank) f := by
    apply runFactoryBody_cache_agree bp rank (rank k) _ _ ?_ ?_ f (Hgood k f hf)
    · intro d _ hdr
      exact buildC_stable bp rank Hgood (rank k) d hdr (rank k) (rank d + 1)
        hdr (by omega)
    · intro d hd
      rw [buildC_none_of_lookup_none bp rank d hd,
        canonC_none_of_lookup_none bp rank d hd]
  have hsome : (canonC bp rank k).isSome :=
    canonC_isSome bp rank Hgood Hnf (rank k + 1) k (by omega) (by simp [hf])
  obtain ⟨v, hv⟩ := Option.isSome_iff_exists.mp hsome
  refine ⟨v, hv, ?_⟩
  have hunf : canonC bp rank k =
      match runFactoryBody bp (buildC bp rank (rank k)) f with
      | .ok w => some w
      | .error _ => none := by
    simp [canonC, buildC, hf]
  cases hr : runFactoryBody bp (buildC bp rank (rank k)) f with
  | ok w =>
    rw [hr] at hunf
    rw [hv] at hunf
    have hvw : v = w := by
      simpa using hunf
    rw [← hagree, hr, hvw]
  | error e =>
    rw [hr] at hunf
    rw [hv] at hunf
    simp at hunf

/-- Progress: one attempt of a factory against a consistent cache either
signals an uncached blueprint key of smaller rank, or behaves exactly as the
attempt against the canonical environment. -/
theorem runFactoryBody_progress (bp : Blueprint) (rank : String → Nat)
    (n : Nat) (c : Cache) (hcon : Consistent bp rank c) :
    ∀ f, GoodTree bp rank n f →
      (∃ d, runFactoryBody bp c f = .error (.jsStr d) ∧
        (lookupBp bp d).isSome ∧ c d = none ∧ rank d < n) ∨
      runFactoryBody bp c f = runFactoryBody bp (canonC bp rank) f := by
  intro f
  induction f with
  | done v => intro _; exact Or.inr rfl
  | fail e => intro _; exact Or.inr rfl
  | read k cont ih =>
    intro hg
    cases hck : c k with
    | some v =>
      have hcan : canonC bp rank k = some v := hcon k v hck
      have h1 : runFactoryBody bp c (.read k cont) =
          runFactoryBody bp c (cont v) := by
        simp [runFactoryBody, hck]
      have h2 : runFactoryBody bp (canonC bp rank) (.read k cont) =
          runFactoryBody bp (canonC bp rank) (cont v) := by
        simp [runFactoryBody, hcan]
      rw [h1, h2]
      exact ih v (hg.2 v)
    | none =>
      cases hlk : lookupBp bp k with
      | some f2 =>
        refine Or.inl ⟨k, ?_, by simp [hlk], hck, hg.1 (by simp [hlk])⟩
        simp [runFactoryBody, hck, hlk]
      | none =>
        have hcan : canonC bp rank k = none :=
          canonC_none_of_lookup_none bp rank k hlk
        have h1 : runFactoryBody bp c (.read k cont) =
            runFactoryBody bp c (cont Val.undef) := by
          simp [runFactoryBody, hck, hlk]
        have h2 : runFactoryBody bp (canonC bp rank) (.read k cont) =
            runFactoryBody bp (canonC bp rank) (cont Val.undef) := by
          simp [runFactoryBody, hcan, hlk]
        rw [h1, h2]
        exact ih Val.undef (hg.2 Val.undef)

/-- More fuel never changes a run of runFactory that already finished. -/
theorem fuel_mono (bp : Blueprint) :
    ∀ F2 F1, F1 ≤ F2 →
      (∀ k c s r, ensureKey bp F1 k c s = some r →
        ensureKey bp F2 k c s = some r) ∧
      (∀ f k c s r, attemptKey bp F1 f k c s = some r →
        attemptKey bp F2 f k c s = some r) := by
  intro F2
  induction F2 with
  | zero =>
    intro F1 h
    have : F1 = 0 := Nat.le_zero.mp h
    subst this
    constructor
    · intro k c s r h2; simp [ensureKey] at h2
    · intro f k c s r h2; simp [attemptKey] at h2
  | succ F2 ih =>
    intro F1 h
    cases F1 with
    | zero =>
      constructor
      · intro k c s r h2; simp [ensureKey] at h2
      · intro f k c s r h2; simp [attemptKey] at h2
    | succ F1 =>
      have hle : F1 ≤ F2 := by omega
      constructor
      · intro k c s r h2
        simp only [ensureKey] at h2 ⊢
        by_cases h3 : (c k).isSome
        · simpa [h3] using h2
        · simp only [h3] at h2 ⊢
          by_cases h4 : k ∈ s
          · simpa [h4] using h2
          · simp only [h4] at h2 ⊢
            cases hlk : lookupBp bp k with
            | none => simpa [hlk] using h2
            | some fac =>
              rw [hlk] at h2
              simp only [Bool.false_eq_true, if_false] at h2 ⊢
              exact (ih F1 hle).2 fac k c (s ++ [k]) r h2
      · intro f k c s r h2
        simp only [attemptKey] at h2 ⊢
        cases hrb : runFactoryBody bp c f with
        | ok v => simpa [hrb] using h2
        | error e =>
          rw [hrb] at h2
          cases e with
          | jsStr s2 =>
            by_cases h5 : (lookupBp bp s2).isSome
            · simp only [h5, if_true] at h2 ⊢
              cases hE : ensureKey bp F1 s2 c s with
              | none => rw [hE] at h2; simp at h2
              | some res =>
                rw [hE] at h2
                rw [(ih F1 hle).1 s2 c s res hE]
                cases res with
                | error e2 => exact h2
                | ok p =>
                  obtain ⟨c2, s3⟩ := p
                  exact (ih F1 hle).2 f k c2 s3 r h2
            · simpa [h5] using h2
          | circular p => exact h2
          | depRes s2 => exact h2
          | genInv => exact h2
          | plainError s2 => exact h2
          | payload v => exact h2

theorem countP_le_of_imp {α : Type} (p q : α → Bool)
    (h : ∀ x, q x = true → p x = true) :
    ∀ l : List α, l.countP q ≤ l.countP p := by
  intro l
  induction l with
  | nil => simp
  | cons a tl ih =>
    simp only [List.countP_cons]
    by_cases ha : q a = true
    · simp [ha, h a ha]; omega
    · have ha2 : q a = false := by simpa using ha
      simp only [ha2]
      cases hpa : p a <;> simp <;> omega

theorem countP_lt_of_witness {α : Type} (p q : α → Bool)
    (h : ∀ x, q x = true → p x = true) :
    ∀ (l : List α) (d : α), d ∈ l → p d = true → q d = false →
      l.countP q < l.countP p := by
  intro l
  induction l with
  | nil => intro d hd; simp at hd
  | cons a tl ih =>
    intro d hd hp hq
    simp only [List.countP_cons]
    rcases List.mem_cons.mp hd with rfl | hd2
    · have hle := countP_le_of_imp p q h tl
      simp only [hq, hp]
      simp
      omega
    · have hlt := ih d hd2 hp hq
      by_cases ha : q a = true
      · simp [ha, h a ha]; omega
      · have ha2 : q a = false := by simpa using ha
        simp only [ha2]
        cases hpa : p a <;> simp <;> omega

/-- Caching one more blueprint key of rank below n strictly shrinks the
termination measure of the restart loop. -/
theorem uncachedBelow_lt (bp : Blueprint) (rank : String → Nat)
    (c1 c2 : Cache) (n : Nat) (d : String)
    (hext : ∀ x v, c1 x = some v → c2 x = some v)
    (hmem : d ∈ bp.map Prod.fst) (hdr : rank d < n)
    (h1 : c1 d = none) (h2 : (c2 d).isSome) :
    uncachedBelow bp rank c2 n < uncachedBelow bp rank c1 n := by
  apply countP_lt_of_witness _ _ ?_ _ d hmem ?_ ?_
  · intro x hx
    simp only [Bool.and_eq_true, decide_eq_true_eq, Option.isNone_iff_eq_none]
      at hx ⊢
    refine ⟨hx.1, ?_⟩
    cases hc1 : c1 x with
    | none => rfl
    | some v => rw [hext x v hc1] at hx; simp at hx
  · simp [hdr, h1]
  · obtain ⟨v, hv⟩ := Option.isSome_iff_exists.mp h2
    simp [hv]

/-- The heart of the resolver proof: for an acyclic registry of no-fail
factories, ensuring any blueprint key from a consistent cache succeeds with
enough fuel, returns the in-progress set unchanged, extends the cache,
keeps it consistent with the canonical environment, and caches the key. -/
theorem ensureKey_spec (bp : Blueprint) (rank : String → Nat)
    (Hgood : ∀ k f, lookupBp bp k = some f → GoodTree bp rank (rank k) f)
    (Hnf : ∀ k f, lookupBp bp k = some f → NoFail f) :
    ∀ N k, rank k < N → (lookupBp bp k).isSome →
    ∀ c s, Consistent bp rank c → (∀ x, x ∈ s → rank k < rank x) →
    ∃ F c2,
      (∀ fuel, F ≤ fuel → ensureKey bp fuel k c s = some (.ok (c2, s))) ∧
      (∀ d v, c d = some v → c2 d = some v) ∧
      Consistent bp rank c2 ∧ (c2 k).isSome := by
  intro N
  induction N with
  | zero => intro k hk; omega
  | succ N ih =>
    intro k hk hbp c s hcon hs
    by_cases hck : (c k).isSome
    · refine ⟨1, c, ?_, fun d v hv => hv, hcon, hck⟩
      intro fuel hf
      cases fuel with
      | zero => omega
      | succ fuel => simp [ensureKey, hck]
    · obtain ⟨fac, hfac⟩ := Option.isSome_iff_exists.mp hbp
      have hknot : k ∉ s := fun hmem => absurd (hs k hmem) (lt_irrefl _)
      obtain ⟨vk, hvk, hrunk⟩ := canonC_fix bp rank Hgood Hnf k fac hfac
      have hsucc : ∀ c1 : Cache, Consistent bp rank c1 →
          (∀ d v, c d = some v → c1 d = some v) →
          runFactoryBody bp c1 fac = runFactoryBody bp (canonC bp rank) fac →
          ∃ F c2, (∀ fuel, F ≤ fuel →
              attemptKey bp fuel fac k c1 (s ++ [k]) = some (.ok (c2, s))) ∧
            (∀ d v, c d = some v → c2 d = some v) ∧
            Consistent bp rank c2 ∧ (c2 k).isSome := by
        intro c1 hcon1 hext1 heq
        refine ⟨1, cacheSet c1 k vk, ?_, ?_, ?_, ?_⟩
        · intro fuel hf
          cases fuel with
          | zero => omega
          | succ fuel =>
            simp only [attemptKey, heq, hrunk]
            rw [removeKey_append_self s k hknot]
        · intro d v hv
          have hv1 := hext1 d v hv
          by_cases hd : d = k
          · subst hd
            have hcv : canonC bp rank d = some v := hcon1 d v hv1
            rw [hvk] at hcv
            have hveq : vk = v := by simpa using hcv
            simp [cacheSet, hveq]
          · simp [cacheSet, hd, hv1]
        · intro d v hv
          by_cases hd : d = k
          · subst hd
            simp only [cacheSet, if_pos rfl] at hv
            have hveq : vk = v := by simpa using hv
            rw [← hveq]
            exact hvk
          · simp only [cacheSet, if_neg hd] at hv
            exact hcon1 d v hv
        · simp [cacheSet]
      have hattempt : ∀ m, ∀ c1 : Cache,
          uncachedBelow bp rank c1 (rank k) ≤ m →
          Consistent bp rank c1 →
          (∀ d v, c d = some v → c1 d = some v) →
          ∃ F c2, (∀ fuel, F ≤ fuel →
              attemptKey bp fuel fac k c1 (s ++ [k]) = some (.ok (c2, s))) ∧
            (∀ d v, c d = some v → c2 d = some v) ∧
            Consistent bp rank c2 ∧ (c2 k).isSome := by
        intro m
        induction m with
        | zero =>
          intro c1 hm hcon1 hext1
          rcases runFactoryBody_progress bp rank (rank k) c1 hcon1 fac
              (Hgood k fac hfac) with ⟨d, herr, hdbp, hdnone, hdr⟩ | heq
          · exfalso
            have hdmem := lookupBp_isSome_mem bp d hdbp
            have hpos : 0 < uncachedBelow bp rank c1 (rank k) := by
              apply List.countP_pos_iff.mpr
              exact ⟨d, hdmem, by simp [hdr, hdnone]⟩
            omega
          · exact hsucc c1 hcon1 hext1 heq
        | succ m ihm =>
          intro c1 hm hcon1 hext1
          rcases runFactoryBody_progress bp rank (rank k) c1 hcon1 fac
              (Hgood k fac hfac) with ⟨d, herr, hdbp, hdnone, hdr⟩ | heq
          · have hdN : rank d < N := by omega
            have hstack : ∀ x, x ∈ s ++ [k] → rank d < rank x := by
              intro x hx
              rcases List.mem_append.mp hx with hx | hx
              · exact lt_trans hdr (hs x hx)
              · simp at hx
                subst hx
                exact hdr
            obtain ⟨F1, c2, hens, hext2, hcon2, hd2⟩ :=
              ih d hdN hdbp c1 (s ++ [k]) hcon1 hstack
            have hmeas : uncachedBelow bp rank c2 (rank k) ≤ m := by
              have hlt : uncachedBelow bp rank c2 (rank k) <
                  uncachedBelow bp rank c1 (rank k) :=
                uncachedBelow_lt bp rank c1 c2 (rank k) d hext2
                  (lookupBp_isSome_mem bp d hdbp) hdr hdnone hd2
              omega
            obtain ⟨F2, c3, hatt, hext3, hcon3, hk3⟩ :=
              ihm c2 hmeas hcon2 (fun d2 v hv => hext2 d2 v (hext1 d2 v hv))
            refine ⟨max F1 F2 + 1, c3, ?_, hext3, hcon3, hk3⟩
            intro fuel hf
            cases fuel with
            | zero => omega
            | succ fuel =>
              have hens2 := hens fuel (by omega)
              have hatt2 := hatt fuel (by omega)
              simp only [attemptKey, herr, hdbp, if_true, hens2]
              exact hatt2
          · exact hsucc c1 hcon1 hext1 heq
      obtain ⟨F, c2, hatt, hext, hcon2, hk2⟩ :=
        hattempt (uncachedBelow bp rank c (rank k)) c le_rfl hcon
          (fun d v hv => hv)
      refine ⟨F + 1, c2, ?_, hext, hcon2, hk2⟩
      intro fuel hf
      cases fuel with
      | zero => omega
      | succ fuel =>
        have hred : ensureKey bp (fuel + 1) k c s =
            attemptKey bp fuel fac k c (s ++ [k]) := by
          simp [ensureKey, hck, hknot, hfac]
        rw [hred]
        exact hatt fuel (by omega)

/-- Ensuring a list of blueprint keys in order from a consistent cache
succeeds with enough fuel and caches every listed key. -/
theorem ensureAll_spec (bp : Blueprint) (rank : String → Nat)
    (Hgood : ∀ k f, lookupBp bp k = some f → GoodTree bp rank (rank k) f)
    (Hnf : ∀ k f, lookupBp bp k = some f → NoFail f) :
    ∀ ks, (∀ x, x ∈ ks → (lookupBp bp x).isSome) →
    ∀ c, Consistent bp rank c →
    ∃ F c2, (∀ fuel, F ≤ fuel → ensureAll bp fuel ks c [] = some (.ok c2)) ∧
      (∀ d v, c d = some v → c2 d = some v) ∧
      Consistent bp rank c2 ∧ (∀ x, x ∈ ks → (c2 x).isSome) := by
  intro ks
  induction ks with
  | nil =>
    intro _ c hcon
    exact ⟨0, c, fun fuel _ => rfl, fun d v hv => hv, hcon, by simp⟩
  | cons k ks ih =>
    intro hmem c hcon
    obtain ⟨F1, c2, hens, hext1, hcon2, hk2⟩ :=
      ensureKey_spec bp rank Hgood Hnf (rank k + 1) k (by omega)
        (hmem k (by simp)) c [] hcon (by simp)
    obtain ⟨F2, c3, hall, hext2, hcon3, hks3⟩ :=
      ih (fun x hx => hmem x (List.mem_cons_of_mem _ hx)) c2 hcon2
    refine ⟨max F1 F2, c3, ?_,
      fun d v hv => hext2 d v (hext1 d v hv), hcon3, ?_⟩
    · intro fuel hf
      have h1 := hens fuel (le_trans (le_max_left _ _) hf)
      have h2 := hall fuel (le_trans (le_max_right _ _) hf)
      simp only [ensureAll, h1]
      exact h2
    · intro x hx
      rcases List.mem_cons.mp hx with rfl | hx2
      · obtain ⟨v, hv⟩ := Option.isSome_iff_exists.mp hk2
        simp [hext2 x v hv]
      · exact hks3 x hx2

/-- The full resolution of an acyclic registry of no-fail factories, with
enough fuel, succeeds and yields exactly the canonical environment. -/
theorem resolveRun_canon (bp : Blueprint) (rank : String → Nat)
    (Hgood : ∀ k f, lookupBp bp k = some f → GoodTree bp rank (rank k) f)
    (Hnf : ∀ k f, lookupBp bp k = some f → NoFail f) :
    ∃ F, ∀ fuel, F ≤ fuel →
      resolveRun bp fuel = some (.ok (canonC bp rank)) := by
  obtain ⟨F, c2, hall, hext, hcon2, hks⟩ :=
    ensureAll_spec bp rank Hgood Hnf (bp.map Prod.fst)
      (fun x hx => mem_lookupBp_isSome bp x hx) (fun _ => none)
      (fun k v hv => by simp at hv)
  have hc2 : c2 = canonC bp rank := by
    funext x
    cases hx : c2 x with
    | some v => exact (hcon2 x v hx).symm
    | none =>
      cases hcx : canonC bp rank x with
      | none => rfl
      | some v =>
        exfalso
        have hmem : x ∈ bp.map Prod.fst :=
          lookupBp_isSome_mem bp x
            (canonC_isSome_lookup bp rank x (by simp [hcx]))
        have hxs := hks x hmem
        rw [hx] at hxs
        simp at hxs
  refine ⟨F, fun fuel hf => ?_⟩
  rw [← hc2]
  simpa [resolveRun] using hall fuel hf

theorem lookupBp_mem_of_eq_some (bp : Blueprint) (k : String) (f : Factory)
    (h : lookupBp bp k = some f) : (k, f) ∈ bp := by
  induction bp with
  | nil => simp [lookupBp] at h
  | cons p rest ih =>
    obtain ⟨k2, f2⟩ := p
    by_cases hk : k = k2
    · subst hk
      simp only [lookupBp, if_pos rfl] at h
      have : f2 = f := by simpa using h
      subst this
      exact List.mem_cons_self _ _
    · simp only [lookupBp, if_neg hk] at h
      exact List.mem_cons_of_mem _ (ih h)

theorem lookupBp_eq_some_of_mem (bp : Blueprint)
    (hnd : (bp.map Prod.fst).Nodup) (k : String) (f : Factory)
    (h : (k, f) ∈ bp) : lookupBp bp k = some f := by
  induction bp with
  | nil => simp at h
  | cons p rest ih =>
    obtain ⟨k2, f2⟩ := p
    have hmap : ((k2, f2) :: rest).map Prod.fst = k2 :: rest.map Prod.fst := rfl
    have hnd2 := List.nodup_cons.mp (hmap ▸ hnd)
    rcases List.mem_cons.mp h with he | hm
    · have hkk : k = k2 ∧ f = f2 := by
        constructor <;> [exact congrArg Prod.fst he; exact congrArg Prod.snd he]
      obtain ⟨rfl, rfl⟩ := hkk
      simp [lookupBp]
    · have hk : k ≠ k2 := by
        intro he2
        subst he2
        exact hnd2.1 (List.mem_map_of_mem Prod.fst hm)
      simp only [lookupBp, if_neg hk]
      exact ih hnd2.2 hm

/-- Two permutations of the same no-duplicate pairs are the same record:
property lookup cannot tell them apart. -/
theorem lookupBp_perm (ps ps2 : Blueprint) (hperm : ps2.Perm ps)
    (hnd : (ps.map Prod.fst).Nodup) :
    ∀ k, lookupBp ps2 k = lookupBp ps k := by
  have hnd2 : (ps2.map Prod.fst).Nodup :=
    ((hperm.map Prod.fst).nodup_iff).mpr hnd
  intro k
  cases h2 : lookupBp ps2 k with
  | some f =>
    have hm : (k, f) ∈ ps2 := lookupBp_mem_of_eq_some ps2 k f h2
    have hm2 : (k, f) ∈ ps := hperm.mem_iff.mp hm
    exact (lookupBp_eq_some_of_mem ps hnd k f hm2).symm
  | none =>
    cases h1 : lookupBp ps k with
    | none => rfl
    | some f =>
      exfalso
      have hm : (k, f) ∈ ps := lookupBp_mem_of_eq_some ps k f h1
      have hm2 : (k, f) ∈ ps2 := hperm.mem_iff.mpr hm
      have hsome := lookupBp_eq_some_of_mem ps2 hnd2 k f hm2
      rw [h2] at hsome
      simp at hsome

theorem setKey_not_mem (bp : Blueprint) (k : String) (f : Factory)
    (h : k ∉ bp.map Prod.fst) : setKey bp k f = bp ++ [(k, f)] := by
  induction bp with
  | nil => rfl
  | cons p rest ih =>
    obtain ⟨k2, f2⟩ := p
    have hk : k2 ≠ k := by
      intro he
      subst he
      exact h (by simp)
    simp only [setKey, if_neg hk, List.cons_append]
    rw [ih (fun hm => h (by simp [hm]))]

theorem provideAll_aux :
    ∀ (ps : List (String × Factory)) (acc : Blueprint),
    (∀ k, k ∈ ps.map Prod.fst → k ∉ acc.map Prod.fst) →
    (ps.map Prod.fst).Nodup →
    List.foldl (fun bp p => setKey bp p.1 p.2) acc ps = acc ++ ps := by
  intro ps
  induction ps with
  | nil => intro acc _ _; simp
  | cons p tl ih =>
    intro acc hdis hnd
    obtain ⟨k, f⟩ := p
    have hk : k ∉ acc.map Prod.fst := hdis k (by simp)
    have hmap : ((k, f) :: tl).map Prod.fst = k :: tl.map Prod.fst := rfl
    have hnd2 := List.nodup_cons.mp (hmap ▸ hnd)
    simp only [List.foldl_cons]
    rw [setKey_not_mem acc k f hk]
    rw [ih (acc ++ [(k, f)]) ?_ hnd2.2]
    · simp
    · intro k2 hk2
      simp only [List.map_append, List.mem_append]
      rintro (h | h)
      · exact hdis k2 (by simp [hk2]) h
      · simp at h
        subst h
        exact hnd2.1 hk2

/-- Providing pairs with distinct keys builds exactly the pair list as the
services record. -/
theorem provideAll_eq_self (ps : List (String × Factory))
    (hnd : (ps.map Prod.fst).Nodup) : provideAll ps = ps := by
  have := provideAll_aux ps [] (by simp) hnd
  simpa [provideAll] using this

/-- C5: for pairs of keys and factories with distinct keys, acyclic
dependencies (witnessed by a rank function below which each factory reads)
and no failing factory, the Registries built by providing the pairs in two
orders that are permutations of one another both resolve, with enough fuel,
to the same final Environment, value-equal at every key: the canonical
environment. -/
theorem claim_C5_resolver_order_independent
    (ps ps2 : List (String × Factory)) (rank : String → Nat)
    (hnd : (ps.map Prod.fst).Nodup) (hperm : ps2.Perm ps)
    (Hgood : ∀ k f, lookupBp ps k = some f → GoodTree ps rank (rank k) f)
    (Hnf : ∀ k f, lookupBp ps k = some f → NoFail f) :
    ∃ fuel fuel2 env,
      resolveRun (provideAll ps) fuel = some (.ok env) ∧
      resolveRun (provideAll ps2) fuel2 = some (.ok env) := by
  have hnd2 : (ps2.map Prod.fst).Nodup :=
    ((hperm.map Prod.fst).nodup_iff).mpr hnd
  have hpa1 : provideAll ps = ps := provideAll_eq_self ps hnd
  have hpa2 : provideAll ps2 = ps2 := provideAll_eq_self ps2 hnd2
  have hlk : ∀ k, lookupBp ps2 k = lookupBp ps k :=
    lookupBp_perm ps ps2 hperm hnd
  have Hgood2 : ∀ k f, lookupBp ps2 k = some f →
      GoodTree ps2 rank (rank k) f := by
    intro k f hf
    exact goodTree_congr ps ps2 rank (fun k2 => (hlk k2).symm) f (rank k)
      (Hgood k f (by rw [← hlk k]; exact hf))
  have Hnf2 : ∀ k f, lookupBp ps2 k = some f → NoFail f := by
    intro k f hf
    exact Hnf k f (by rw [← hlk k]; exact hf)
  obtain ⟨F1, h1⟩ := resolveRun_canon ps rank Hgood Hnf
  obtain ⟨F2, h2⟩ := resolveRun_canon ps2 rank Hgood2 Hnf2
  have hcc : canonC ps2 rank = canonC ps rank := canonC_congr ps2 ps rank hlk
  refine ⟨F1, F2, canonC ps rank, ?_, ?_⟩
  · rw [hpa1]
    exact h1 F1 le_rfl
  · rw [hpa2, ← hcc]
    exact h2 F2 le_rfl

/-- Witness for C5: the odd-from-even example of the specification,
registered in the two possible orders, resolves to the same environment. -/
theorem claim_C5_witness :
    ∃ fuel fuel2 env,
      resolveRun (provideAll psEO) fuel = some (.ok env) ∧
      resolveRun (provideAll psOE) fuel2 = some (.ok env) := by
  refine claim_C5_resolver_order_independent psEO psOE
    (fun k => if k = ("odd") then 1 else 0) (by decide) ?_ ?_ ?_
  · simp only [psEO, psOE]
    exact List.Perm.swap _ _ _
  · intro k f hf
    simp only [psEO, lookupBp] at hf
    split at hf
    · obtain rfl : Factory.done (Val.num 2) = f := by simpa using hf
      trivial
    · split at hf
      · obtain rfl : Factory.read ("even")
            (fun v => Factory.done (incVal v)) = f := by simpa using hf
        refine ⟨fun _ => ?_, fun v => trivial⟩
        simp_all
      · exact absurd hf (by simp)
  · intro k f hf
    simp only [psEO, lookupBp] at hf
    split at hf
    · obtain rfl : Factory.done (Val.num 2) = f := by simpa using hf
      trivial
    · split at hf
      · obtain rfl : Factory.read ("even")
            (fun v => Factory.done (incVal v)) = f := by simpa using hf
        exact fun v => trivial
      · exact absurd hf (by simp)

end FpClean
